import Mathlib

/-!
Shallow embedding of the mp3tolight audio-analysis code (audio-3d-visualizer).

JavaScript numbers are modelled as rationals (`ℚ`); the transcendental
functions of the JS `Math` object (`sqrt`, `cos`, `sin`, `log`, `exp`,
`log2`) are abstract parameters collected in a `JsMath` structure, so each
theorem states exactly which analytic facts about them it uses.
Division by zero in `ℚ` yields `0` (where JS would yield `NaN`/`Infinity`);
wherever this matters the surrounding guard from the source is modelled
explicitly and noted.
-/

/-- Abstract interface for the JS `Math` object: the transcendental
functions used by the audio code, over `ℚ`. -/
structure JsMath where
  sqrt : ℚ → ℚ
  cos : ℚ → ℚ
  sin : ℚ → ℚ
  log : ℚ → ℚ
  exp : ℚ → ℚ
  log2 : ℚ → ℚ
  pi : ℚ

/-- Model of JS `Math.round`: round half toward positive infinity,
`⌊x + 1/2⌋`. -/
def jsRound (q : ℚ) : ℤ := ⌊q + 1/2⌋

/-- A trivial concrete `JsMath` interpretation, used by witnesses whose
statement does not depend on the transcendental functions. -/
def jsMathZero : JsMath :=
  { sqrt := fun _ => 0, cos := fun _ => 0, sin := fun _ => 0,
    log := fun _ => 0, exp := fun _ => 0, log2 := fun _ => 0, pi := 0 }

/-- Model of JS `Math.max(...xs)` on an argument list: `none` models the
empty spread (JS would give `-Infinity`). -/
def listMax? : List ℚ → Option ℚ
  | [] => none
  | x :: xs => some (xs.foldl max x)

/-- The analyzers' framing loop `for (let i = 0; i < bound; i += H)`,
collecting the loop variable. `bound` is `buffer.length - windowSize`.
The `0 < H` conjunct makes the non-terminating JS configuration `H = 0`
return `[]`. -/
def frameLoop (bound H : ℕ) (i : ℕ) : List ℕ :=
  if h : i < bound ∧ 0 < H then i :: frameLoop bound H (i + H) else []
termination_by bound - i
decreasing_by omega

/-- Frame start offsets produced by the framing pass shared by
`analyzeBasic` (part_001 line 14), `analyzeChroma` (line 114),
`calculateEnergyWindows`, `detectOnsets` and `analyzeSpectral`:
offsets `0, H, 2H, …` while `offset < len - W` (strict). -/
def frameStarts (len W H : ℕ) : List ℕ := frameLoop (len - W) H 0

/-- The frames themselves: `channelData.slice(i, i + W)` at each start
offset (equivalently the inner loop `for j in [0,W)` of `analyzeBasic`). -/
def frames (data : List ℚ) (W H : ℕ) : List (List ℚ) :=
  (frameStarts data.length W H).map (fun i => (data.drop i).take W)

/-- Model of `FFT.reverseBits(num, bits)` (audioUtils.js lines 109–116):
`for i in [0,bits): result = (result << 1) | (num & 1); num >>= 1`. -/
def reverseBits (num bits : ℕ) : ℕ :=
  (List.range bits).foldl
    (fun st _ => ((st.1 <<< 1) ||| (st.2 &&& 1), st.2 >>> 1)) (0, num) |>.1

/-- The state built by the `FFT` constructor (audioUtils.js lines 84–107). -/
structure FFTState where
  size : ℕ
  log2Size : ℕ
  bitReversalIndices : List ℕ
  twiddleFactors : List (ℚ × ℚ)
deriving Repr, DecidableEq

/-- The `FFT` constructor. The JS source computes `Math.log2(size)` and
throws `'FFT size must be a power of 2'` unless it is an integer; for a
natural `size` the real number `log2 size` is an integer iff
`0 < size ∧ size = 2 ^ Nat.log2 size`, which is the guard used here.
On success it precomputes the bit-reversal table and the twiddle factors
`(cos(-2πi/size), sin(-2πi/size))` for `i < size/2`. -/
def FFT.mk (M : JsMath) (size : ℕ) : Except String FFTState :=
  if 0 < size ∧ size = 2 ^ Nat.log2 size then
    Except.ok
      { size := size
        log2Size := Nat.log2 size
        bitReversalIndices :=
          (List.range size).map (fun i => reverseBits i (Nat.log2 size))
        twiddleFactors :=
          (List.range (size / 2)).map (fun i =>
            let angle : ℚ := -2 * M.pi * i / size
            (M.cos angle, M.sin angle)) }
  else
    Except.error "FFT size must be a power of 2"

/-- The `'hann'` branch of `createWindowFunction(size, 'hann')`
(audioUtils.js lines 11–16): `w[i] = 0.5 * (1 - cos(2πi/(size-1)))`. -/
def createWindowHann (M : JsMath) (size : ℕ) : List ℚ :=
  (List.range size).map
    (fun i : ℕ => (1/2) * (1 - M.cos (2 * M.pi * (i : ℚ) / ((size - 1 : ℕ) : ℚ))))

/-- The per-frame feature record of `calculateSpectralFeatures`
(spectralAnalysis.js / part_004). -/
structure SpectralFeatures where
  centroid : ℚ
  bandwidth : ℚ
  rolloff : ℚ
  flux : ℚ
  flatness : ℚ
  crest : ℚ
  energy : ℚ
  slope : ℚ
  kurtosis : ℚ
  skewness : ℚ
deriving Repr, DecidableEq

/-- Total spectral energy
`spectrum.reduce((sum, mag) => sum + mag*mag, 0)` (part_004 line 110). -/
def totalSpectralEnergy (spectrum : List ℚ) : ℚ :=
  (spectrum.map (fun m => m * m)).sum

/-- Bin frequency `(i * sampleRate) / fftSize`. -/
def binFreq (sr fftSize : ℕ) (i : ℕ) : ℚ := (i * sr : ℕ) / (fftSize : ℚ)

/-- The spectral-rolloff scan (part_004 lines 138–147): walk the spectrum
accumulating energy; at the first bin where the running sum reaches the
threshold return that bin's frequency, else 0. -/
def rolloffLoop (freq : ℕ → ℚ) (thr : ℚ) : List ℚ → ℕ → ℚ → ℚ
  | [], _, _ => 0
  | m :: rest, i, acc =>
      let acc' := acc + m * m
      if thr ≤ acc' then freq i else rolloffLoop freq thr rest (i + 1) acc'

/-- Model of `calculateSpectralSlope` (part_004 lines 181–194): linear
regression of log-magnitude on log-frequency; the `isFinite` guard maps a
zero denominator to 0. -/
def calculateSpectralSlope (M : JsMath) (spectrum : List ℚ) (freq : ℕ → ℚ) : ℚ :=
  let logMagnitudes := spectrum.map (fun m => M.log (max m (1 / 10 ^ 10)))
  let logFrequencies := (List.range spectrum.length).map
    (fun i => M.log (max (freq i) 1))
  let n : ℚ := (logMagnitudes.length : ℚ)
  let sumX := logFrequencies.sum
  let sumY := logMagnitudes.sum
  let sumXY := ((logFrequencies.zip logMagnitudes).map (fun p => p.1 * p.2)).sum
  let sumXX := (logFrequencies.map (fun x => x * x)).sum
  let den := n * sumXX - sumX * sumX
  if den = 0 then 0 else (n * sumXY - sumX * sumY) / den

/-- Model of `calculateSpectralMoments` (part_004 lines 196–216). -/
def calculateSpectralMoments (M : JsMath) (spectrum : List ℚ) (freq : ℕ → ℚ)
    (centroid totalEnergy : ℚ) : ℚ × ℚ :=
  let terms := (List.range spectrum.length).zip spectrum
  let moment2 := (terms.map (fun p =>
    (freq p.1 - centroid) ^ 2 * (p.2 * p.2 / totalEnergy))).sum
  let moment3 := (terms.map (fun p =>
    (freq p.1 - centroid) ^ 3 * (p.2 * p.2 / totalEnergy))).sum
  let moment4 := (terms.map (fun p =>
    (freq p.1 - centroid) ^ 4 * (p.2 * p.2 / totalEnergy))).sum
  let variance := moment2
  let stdDev := M.sqrt variance
  let skewness := if 0 < stdDev then moment3 / (stdDev * stdDev * stdDev) else 0
  let kurtosis := if 0 < variance then moment4 / (variance * variance) - 3 else 0
  (kurtosis, skewness)

/-- Model of `calculateSpectralFeatures(spectrum, sampleRate, fftSize,
previousSpectrum)` (part_004 lines 105–179). A frame with zero total
energy short-circuits to the all-zero record; otherwise all ten features
are computed. -/
def calculateSpectralFeatures (M : JsMath) (spectrum : List ℚ)
    (sr fftSize : ℕ) (previousSpectrum : Option (List ℚ)) : SpectralFeatures :=
  let freq := binFreq sr fftSize
  let totalEnergy := totalSpectralEnergy spectrum
  if totalEnergy = 0 then
    { centroid := 0, bandwidth := 0, rolloff := 0, flux := 0, flatness := 0,
      crest := 0, energy := 0, slope := 0, kurtosis := 0, skewness := 0 }
  else
    let terms := (List.range spectrum.length).zip spectrum
    let centroid :=
      (terms.map (fun p => freq p.1 * (p.2 * p.2))).sum / totalEnergy
    let bandwidth := M.sqrt
      ((terms.map (fun p => (freq p.1 - centroid) ^ 2 * (p.2 * p.2))).sum
        / totalEnergy)
    let rolloff := rolloffLoop freq (totalEnergy * (85 / 100)) spectrum 0 0
    let flux := match previousSpectrum with
      | none => 0
      | some prev =>
          M.sqrt (((spectrum.zip prev).map (fun p => (p.1 - p.2) ^ 2)).sum)
    let geometricMean := M.exp
      ((spectrum.map (fun m => M.log (max m (1 / 10 ^ 10)))).sum
        / (spectrum.length : ℚ))
    let arithmeticMean := spectrum.sum / (spectrum.length : ℚ)
    let flatness := if 0 < arithmeticMean then geometricMean / arithmeticMean else 0
    let maxMagnitude := (listMax? spectrum).getD 0
    let rmsMagnitude := M.sqrt (totalEnergy / (spectrum.length : ℚ))
    let crest := if 0 < rmsMagnitude then maxMagnitude / rmsMagnitude else 0
    let slope := calculateSpectralSlope M spectrum freq
    let moments := calculateSpectralMoments M spectrum freq centroid totalEnergy
    { centroid := centroid, bandwidth := bandwidth, rolloff := rolloff,
      flux := flux, flatness := flatness, crest := crest, energy := totalEnergy,
      slope := slope, kurtosis := moments.1, skewness := moments.2 }

/-- Model of `performFFT(buffer)` (part_001 lines 140–156): the naive DFT,
`X[k] = Σₙ buf[n]·(cos(−2πkn/N), sin(−2πkn/N))`. -/
def performFFT (M : JsMath) (buffer : List ℚ) : List (ℚ × ℚ) :=
  let N := buffer.length
  (List.range N).map (fun k =>
    ((((List.range N).zip buffer).map
        (fun p => p.2 * M.cos (-2 * M.pi * k * p.1 / (N : ℚ)))).sum,
     (((List.range N).zip buffer).map
        (fun p => p.2 * M.sin (-2 * M.pi * k * p.1 / (N : ℚ)))).sum))

/-- The accumulation loop of `calculateChromaFromFFT` (part_001 lines
158–179): for each positive-frequency bin `1 ≤ i < fft.length/2` whose
frequency lies in [80, 2000] Hz, add the bin magnitude to the pitch class
`round(69 + 12·log2(freq/440)) mod 12`. The double `%` of the source
(`(x % 12 + 12) % 12` with JS truncated remainder) is `Int.tmod`. -/
def accumChroma (M : JsMath) (fft : List (ℚ × ℚ)) (sr fftSize : ℕ) : List ℚ :=
  (List.range fft.length).foldl
    (fun ch i =>
      if 1 ≤ i ∧ 2 * i < fft.length then
        let freq := binFreq sr fftSize i
        if 80 ≤ freq ∧ freq ≤ 2000 then
          let p := fft.getD i (0, 0)
          let magnitude := M.sqrt (p.1 * p.1 + p.2 * p.2)
          let midiNote := 69 + 12 * M.log2 (freq / 440)
          let idx := (((jsRound midiNote).tmod 12 + 12).tmod 12).toNat
          ch.set idx (ch.getD idx 0 + magnitude)
        else ch
      else ch)
    (List.replicate 12 0)

/-- Model of `calculateChromaFromFFT` (part_001 lines 158–188): accumulate,
then normalize by the frame maximum, returning the zero vector when the
maximum is not positive. -/
def calculateChromaFromFFT (M : JsMath) (fft : List (ℚ × ℚ))
    (sr fftSize : ℕ) : List ℚ :=
  let chroma := accumChroma M fft sr fftSize
  let mx := (listMax? chroma).getD 0
  if 0 < mx then chroma.map (fun c => c / mx) else List.replicate 12 0

/-- The chroma sequence of `analyzeChroma` (part_001 lines 104–138):
frames of 2048 samples at hop 1024, each passed through the DFT and
`calculateChromaFromFFT`. -/
def analyzeChromaFeatures (M : JsMath) (data : List ℚ) (sr : ℕ) : List (List ℚ) :=
  (frames data 2048 1024).map
    (fun w => calculateChromaFromFFT M (performFFT M w) sr 2048)

/-- The in-place middle loop of `smoothArray` (part_001 lines 54–58):
`smoothed[i] = smoothed[i]*(1-f) + (smoothed[i-1]+smoothed[i+1])*f*0.5`,
where `smoothed[i-1]` is the already-updated value (`prev`) and
`smoothed[i+1]` the still-old one; the last element is left untouched. -/
def smoothAux (f : ℚ) : ℚ → List ℚ → List ℚ
  | _, [] => []
  | _, [x] => [x]
  | prev, x :: y :: rest =>
      let x' := x * (1 - f) + (prev + y) * f * (1/2)
      x' :: smoothAux f x' (y :: rest)

/-- Model of `smoothArray(arr, factor)` (part_001 lines 51–60): identity
for `factor ≤ 0`, else the sequential neighbour blend with endpoints
fixed. -/
def smoothArray (arr : List ℚ) (f : ℚ) : List ℚ :=
  if f ≤ 0 then arr
  else
    match arr with
    | [] => []
    | x :: rest => x :: smoothAux f x rest

/-- The RMS pass of `analyzeBasic` (part_001 lines 8–20):
`W = ⌊sampleRate·0.1⌋`, `H = ⌊W/4⌋`, one `sqrt(Σ s²/W)` per frame. -/
def rmsAmplitudes (M : JsMath) (data : List ℚ) (sr : ℕ) : List ℚ :=
  let W := sr / 10
  (frames data W (W / 4)).map
    (fun fr => M.sqrt ((fr.map (fun s => s * s)).sum / (W : ℚ)))

/-- The normalization step of `analyzeBasic` (part_001 lines 22–26):
divide by the maximum when it is positive, else leave unchanged
(`Math.max()` of an empty spread is `-Infinity`, also not `> 0`). -/
def normalizeAmplitudes (amps : List ℚ) : List ℚ :=
  match listMax? amps with
  | none => amps
  | some m => if 0 < m then amps.map (fun a => a / m) else amps

/-- The amplitude sequence returned by `analyzeBasic` (part_001 line 29):
normalized RMS amplitudes smoothed with factor 0.8. -/
def analyzeBasicAmplitude (M : JsMath) (data : List ℚ) (sr : ℕ) : List ℚ :=
  smoothArray (normalizeAmplitudes (rmsAmplitudes M data sr)) (4/5)

/-- A concrete interpretation of `Math.sqrt` that agrees with the exact
square root at every argument reached in the counterexample computation
below (0, 9, 16 and 25), and is nonnegative everywhere. -/
def sqrtOnSquares (q : ℚ) : ℚ :=
  if q = 9 then 3 else if q = 16 then 4 else if q = 25 then 5 else 0

/-- Concrete `JsMath` interpretation built on `sqrtOnSquares`. -/
def jsMathCex : JsMath := { jsMathZero with sqrt := sqrtOnSquares }

/-- Counterexample buffer: 13 samples at `sampleRate = 80`
(`windowSize = 8`, `hopSize = 2`, three frames). -/
def cexData : List ℚ := [0, 0, 6, 6, 0, 0, 0, 0, 8, 8, 0, 0, 0]

/-- Consecutive inter-beat intervals (part_003 lines 171–174). -/
def intervalsOf (beats : List ℚ) : List ℚ :=
  (beats.zip beats.tail).map (fun p => p.2 - p.1)

/-- The median interval of `calculateTempo` (part_003 lines 177–178):
sort ascending, take index `⌊length/2⌋`. -/
def medianInterval (beats : List ℚ) : ℚ :=
  let intervals := intervalsOf beats
  (intervals.insertionSort (· ≤ ·)).getD (intervals.length / 2) 0

/-- Model of `calculateTempo(beats, duration)` (part_003 lines 167–191;
`duration` is unused by the source). The source wraps the two fold
branches in `if (bpm < 60 || bpm > 200)` and falls through to
`Math.round(bpm)`; since each inner branch re-tests its own side of that
disjunction, the flattened if-chain below has identical semantics. -/
def calculateTempo (beats : List ℚ) : ℚ :=
  if beats.length < 2 then 0
  else
    let bpm := 60 / medianInterval beats
    if bpm < 60 ∧ bpm * 2 ≤ 200 then bpm * 2
    else if 200 < bpm ∧ 60 ≤ bpm / 2 then bpm / 2
    else (jsRound bpm : ℚ)

/-- The `combinedData` of `findBeats` (part_003 lines 130–133):
`energy*0.7 + (onsetData[i] || 0)*0.3`. -/
def combinedData (E O : List ℚ) : List ℚ :=
  ((List.range E.length).zip E).map
    (fun p => p.2 * (7/10) + O.getD p.1 0 * (3/10))

/-- The `normalizedData` of `findBeats` (part_003 lines 136–137): divide
by `Math.max(...combinedData)`. -/
def normalizedData (E O : List ℚ) : List ℚ :=
  (combinedData E O).map (fun v => v / (listMax? (combinedData E O)).getD 0)

/-- Minimum inter-beat spacing in frames,
`Math.floor(0.3 * sampleRate / hopSize)` (part_003 line 127). -/
def minBeatInterval (sr hop : ℕ) : ℕ := (⌊(3/10 : ℚ) * sr / hop⌋).toNat

/-- The 1-second local-average window `Math.floor(sampleRate / hopSize)`
(part_003 line 140). -/
def beatWindow (sr hop : ℕ) : ℕ := sr / hop

/-- The adaptive-threshold peak test of `findBeats` (part_003 lines
142–155): the value at `i` exceeds `max(0.3, localAverage·1.3)` and both
neighbours. -/
def beatPeakCond (norm : List ℚ) (wS : ℕ) (i : ℕ) : Bool :=
  let localSum := ((List.range' (i - wS) (2 * wS)).map (fun j => norm.getD j 0)).sum
  let localAverage := localSum / ((2 * wS : ℕ) : ℚ)
  let thr := max (3/10) (localAverage * (13/10))
  decide (thr < norm.getD i 0) && decide (norm.getD (i - 1) 0 < norm.getD i 0)
    && decide (norm.getD (i + 1) 0 < norm.getD i 0)

/-- The beat-collecting loop of `findBeats` (part_003 lines 142–161):
push the frame index when the peak test holds and it is more than
`minBeatInterval` frames past the previous beat. -/
def findBeatsLoop (cond : ℕ → Bool) (mBI : ℕ) : List ℕ → List ℕ → List ℕ
  | [], beats => beats
  | i :: rest, beats =>
      if cond i && (match beats.getLast? with
          | none => true
          | some b => decide (mBI < i - b)) then
        findBeatsLoop cond mBI rest (beats ++ [i])
      else
        findBeatsLoop cond mBI rest beats

/-- The beat frame indices selected by `findBeats`. -/
def findBeatsFrames (E O : List ℚ) (sr hop : ℕ) : List ℕ :=
  findBeatsLoop (beatPeakCond (normalizedData E O) (beatWindow sr hop))
    (minBeatInterval sr hop)
    (List.range' (beatWindow sr hop)
      ((normalizedData E O).length - beatWindow sr hop - beatWindow sr hop))
    []

/-- Model of `findBeats(energyData, onsetData, sampleRate, hopSize)`
(part_003 lines 124–165): selected frame indices converted to seconds via
`(frameIndex * hopSize) / sampleRate`. -/
def findBeats (E O : List ℚ) (sr hop : ℕ) : List ℚ :=
  (findBeatsFrames E O sr hop).map (fun i => ((i * hop : ℕ) : ℚ) / (sr : ℚ))

/-- The six analysis tabs of `useAudioAnalysis.js`. -/
inductive Tab where
  | basic
  | chroma
  | beats
  | frequency
  | spectral
  | tempo
deriving DecidableEq, Repr

/-- The hook state of `useAudioAnalysis` (lines 4–14): the per-tab result
cache and the stored audio buffer. `β` is the buffer type, `ρ` the
analysis-record type. -/
structure HookState (β ρ : Type) where
  analysisData : Tab → Option ρ
  audioBuffer : Option β

/-- The initial hook state: every cache slot `null`, no buffer. -/
def initialHookState (β ρ : Type) : HookState β ρ :=
  { analysisData := fun _ => none, audioBuffer := none }

/-- Model of `analyzeForTab(tabId, buffer)` (useAudioAnalysis.js lines
44–80): returns `null` on a falsy buffer; stores the buffer; returns the
cached record if the slot for `tabId` is filled (regardless of which
buffer it was computed from); otherwise runs the analyzer and fills the
slot. The result triple is (returned record, next state, number of
analyzer invocations). -/
def analyzeForTab {β ρ : Type} (analyze : Tab → β → ρ) (tabId : Tab)
    (buffer : Option β) (s : HookState β ρ) : Option ρ × HookState β ρ × ℕ :=
  match buffer with
  | none => (none, s, 0)
  | some b =>
    let s1 : HookState β ρ := { s with audioBuffer := some b }
    match s1.analysisData tabId with
    | some r => (some r, s1, 0)
    | none =>
      let r := analyze tabId b
      (some r,
        { s1 with analysisData := fun t => if t = tabId then some r else s1.analysisData t },
        1)

/-- Model of `clearAnalysisData` (useAudioAnalysis.js lines 83–93): resets
every cache slot and the stored buffer. Exported by the hook but never
called by any component in the repository. -/
def clearAnalysisData {β ρ : Type} (_s : HookState β ρ) : HookState β ρ :=
  initialHookState β ρ

/-- Model of `handleFileUpload(file)` (Audio3DVisualizer, part_000 lines
87–104) with the buffer already decoded (`none` models a failed
`loadAudioBuffer`): it stores the new buffer (`setAudioBuffer`) and runs
`analyzeForTab(activeTab, buffer)` — it never calls `clearAnalysisData`.
Returns (next state, number of analyzer invocations). -/
def handleFileUpload {β ρ : Type} (analyze : Tab → β → ρ) (activeTab : Tab)
    (loaded : Option β) (s : HookState β ρ) : HookState β ρ × ℕ :=
  match loaded with
  | none => (s, 0)
  | some b =>
    let s1 : HookState β ρ := { s with audioBuffer := some b }
    let res := analyzeForTab analyze activeTab (some b) s1
    (res.2.1, res.2.2)

/-- Closed form of the framing loop: starting at `i` with positive step
`H`, the collected offsets are `i, i+H, …` — `⌈(bound − i)/H⌉` of them. -/
theorem frameLoop_eq (bound H : ℕ) (hH : 0 < H) (i : ℕ) :
    frameLoop bound H i
      = (List.range ((bound - i + H - 1) / H)).map (fun k => i + k * H) := by
  rw [frameLoop]
  split
  · next h =>
    rw [frameLoop_eq bound H hH (i + H)]
    have hm : 1 ≤ bound - i := by omega
    have hc : (bound - i + H - 1) / H = (bound - (i + H) + H - 1) / H + 1 := by
      rcases le_or_lt H (bound - i) with hge | hlt
      · have h1 : bound - i + H - 1 = (bound - (i + H) + H - 1) + H := by omega
        rw [h1, Nat.add_div_right _ hH]
      · have l2 : bound - (i + H) = 0 := by omega
        rw [show bound - i + H - 1 = (bound - i - 1) + H from by omega,
          Nat.add_div_right _ hH,
          Nat.div_eq_of_lt (show bound - i - 1 < H from by omega), l2,
          show 0 + H - 1 = H - 1 from by omega,
          Nat.div_eq_of_lt (show H - 1 < H from by omega)]
    rw [hc, List.range_succ_eq_map, List.map_cons, List.map_map]
    refine congrArg₂ _ (by omega) (List.map_congr_left fun k _ => ?_)
    simp [Nat.succ_eq_add_one]
    ring
  · next h =>
    rcases Nat.lt_or_ge i bound with hlt | hge
    · omega
    · have : bound - i = 0 := by omega
      rw [this]
      have : (0 + H - 1) / H = 0 := Nat.div_eq_of_lt (by omega)
      rw [this, List.range_zero, List.map_nil]
termination_by bound - i
decreasing_by omega

/-- Every offset collected by the framing loop is below the loop bound. -/
theorem frameLoop_mem_lt (bound H : ℕ) (i : ℕ) :
    ∀ j ∈ frameLoop bound H i, j < bound := by
  intro j hj
  rw [frameLoop] at hj
  split at hj
  · next h =>
    rcases List.mem_cons.mp hj with rfl | hj'
    · exact h.1
    · exact frameLoop_mem_lt bound H (i + H) j hj'
  · exact absurd hj (List.not_mem_nil j)
termination_by bound - i
decreasing_by omega

/-- C1 (amended). For a positive hop size `H`: the framing pass yields the
frames at offsets `0, H, 2·H, …` for as long as `offset + W < len`
(strictly) — that is `⌈(len ∸ W)/H⌉ = (len ∸ W + H - 1) / H` frames
(`∸` truncated subtraction), each of length exactly `W`; this is
`⌊(len−W−1)/H⌋ + 1` frames when `len > W` and zero frames when `len ≤ W`.
A frame whose end would coincide with the buffer end (`offset + W = len`)
is not produced. -/
theorem framing_pass_spec (data : List ℚ) (W H : ℕ) (hH : 0 < H) :
    frameStarts data.length W H
      = (List.range ((data.length - W + H - 1) / H)).map (fun k => k * H)
    ∧ (∀ f ∈ frames data W H, f.length = W)
    ∧ (∀ i ∈ frameStarts data.length W H, i + W < data.length) := by
  refine ⟨?_, ?_, ?_⟩
  · rw [frameStarts, frameLoop_eq _ _ hH]
    simp
  · intro f hf
    rw [frames, List.mem_map] at hf
    obtain ⟨i, hi, rfl⟩ := hf
    have hlt : i < data.length - W := frameLoop_mem_lt _ _ _ i hi
    simp only [List.length_take, List.length_drop]
    omega
  · intro i hi
    have hlt : i < data.length - W := frameLoop_mem_lt _ _ _ i hi
    omega

/-- Witness for `framing_pass_spec` at `data = [1,2,3,4,5,6]`, `W = 3`,
`H = 2` (frames at offsets 0 and 2 only: `0 + 3 < 6`, `2 + 3 < 6`,
but not `4 + 3 ≤ 6`). -/
theorem framing_pass_spec_witness :
    frameStarts (List.length [(1:ℚ),2,3,4,5,6]) 3 2
        = (List.range ((List.length [(1:ℚ),2,3,4,5,6] - 3 + 2 - 1) / 2)).map
            (fun k => k * 2)
      ∧ (∀ f ∈ frames [(1:ℚ),2,3,4,5,6] 3 2, f.length = 3)
      ∧ (∀ i ∈ frameStarts (List.length [(1:ℚ),2,3,4,5,6]) 3 2,
          i + 3 < List.length [(1:ℚ),2,3,4,5,6]) :=
  framing_pass_spec [(1:ℚ),2,3,4,5,6] 3 2 (by norm_num)

/-- Counterexample to C1 as stated: with `len = 8 ≥ W = 4` and `H = 2`
the claim predicts `⌊(8−4)/2⌋ + 1 = 3` frames, but the framing pass
produces only 2 (the offset `4` with `4 + 4 = 8 = len` is excluded by the
strict `i < length - windowSize` loop bound in the source). -/
theorem framing_claim_cex :
    ¬ ((frames (List.replicate 8 (0:ℚ)) 4 2).length = (8 - 4) / 2 + 1) := by
  have h := frameLoop_eq 4 2 (by norm_num) 0
  simp only [frames, frameStarts, List.length_replicate, List.length_map]
  norm_num [h]

/-- C4: constructing an `FFT` with a power-of-two size succeeds (does not
throw), and constructing with any size that is not a power of two fails
with the descriptive error `'FFT size must be a power of 2'`. -/
theorem fft_size_guard (M : JsMath) :
    (∀ k : ℕ, (FFT.mk M (2 ^ k)).isOk = true)
    ∧ (∀ n : ℕ, (¬ ∃ k : ℕ, n = 2 ^ k) →
        FFT.mk M n = Except.error "FFT size must be a power of 2") := by
  constructor
  · intro k
    have hpos : 0 < 2 ^ k := Nat.pos_pow_of_pos k (by norm_num)
    have hlog : Nat.log2 (2 ^ k) = k := by
      rw [Nat.log2_eq_log_two, Nat.log_pow Nat.one_lt_two]
    rw [FFT.mk, if_pos ⟨hpos, by rw [hlog]⟩]
    rfl
  · intro n hn
    rw [FFT.mk, if_neg]
    rintro ⟨-, hpow⟩
    exact hn ⟨Nat.log2 n, hpow⟩

/-- Witness for `fft_size_guard`: `N = 256 = 2^8` succeeds and `N = 100`
fails with the descriptive error. -/
theorem fft_size_guard_witness :
    (FFT.mk jsMathZero (2 ^ 8)).isOk = true
    ∧ FFT.mk jsMathZero 100
        = Except.error "FFT size must be a power of 2" := by
  constructor
  · exact (fft_size_guard _).1 8
  · refine (fft_size_guard _).2 100 ?_
    rintro ⟨k, hk⟩
    have hk7 : k < 7 := by
      by_contra hge
      have : 2 ^ 7 ≤ 2 ^ k := Nat.pow_le_pow_right (by norm_num) (by omega)
      omega
    interval_cases k <;> omega

/-- Evaluation of `getD` on a list built as `(List.range N).map f`, at an
index below `N`: it is just `f` at that index. -/
theorem getD_map_range (f : ℕ → ℚ) (N j : ℕ) (hj : j < N) :
    ((List.range N).map f).getD j 0 = f j := by
  rw [List.getD_eq_getElem?_getD, List.getElem?_map, List.getElem?_range hj]
  rfl

/-- C9: the Hann window coefficient array is symmetric,
`w[i] = w[N-1-i]` for every `i < N`. The only analytic fact used is
`cos (2π - x) = cos x`. -/
theorem hann_window_symmetric (M : JsMath)
    (hcos : ∀ x : ℚ, M.cos (2 * M.pi - x) = M.cos x)
    (N i : ℕ) (hi : i < N) :
    (createWindowHann M N).getD i 0 = (createWindowHann M N).getD (N - 1 - i) 0 := by
  have hi' : N - 1 - i < N := by omega
  simp only [createWindowHann]
  rw [getD_map_range _ _ _ hi, getD_map_range _ _ _ hi']
  by_cases hN : N ≤ 1
  · have hN1 : N = 1 := by omega
    subst hN1
    have h0 : i = 0 := by omega
    subst h0
    norm_num
  · have hD : (N - 1 : ℕ) ≠ 0 := by omega
    have hDq : ((N - 1 : ℕ) : ℚ) ≠ 0 := Nat.cast_ne_zero.mpr hD
    have hcast : ((N - 1 - i : ℕ) : ℚ) = ((N - 1 : ℕ) : ℚ) - (i : ℚ) := by
      have hle : i ≤ N - 1 := by omega
      exact Nat.cast_sub hle
    have harg : 2 * M.pi * ((N - 1 - i : ℕ) : ℚ) / ((N - 1 : ℕ) : ℚ)
        = 2 * M.pi - 2 * M.pi * (i : ℚ) / ((N - 1 : ℕ) : ℚ) := by
      rw [hcast]
      field_simp
      ring
    rw [harg, hcos]

/-- Witness for `hann_window_symmetric` at `N = 4`, `i = 1`, with the
trivial interpretation (`pi = 0`, `cos = const 0`) for which
`cos (2π - x) = cos x` holds definitionally. -/
theorem hann_window_symmetric_witness :
    (createWindowHann jsMathZero 4).getD 1 0
      = (createWindowHann jsMathZero 4).getD (4 - 1 - 1) 0 :=
  hann_window_symmetric jsMathZero (fun _ => rfl) 4 1 (by norm_num)

/-- C8: a frame with zero total spectral energy yields 0 for every feature
(centroid, bandwidth, rolloff, flux, flatness, crest, energy, slope,
kurtosis, skewness); the guard returns a total, well-defined record, so no
`NaN`/`Infinity` can arise for such a frame. -/
theorem spectral_silent_frame_zero (M : JsMath) (spectrum : List ℚ)
    (sr fftSize : ℕ) (prev : Option (List ℚ))
    (h : totalSpectralEnergy spectrum = 0) :
    calculateSpectralFeatures M spectrum sr fftSize prev
      = { centroid := 0, bandwidth := 0, rolloff := 0, flux := 0,
          flatness := 0, crest := 0, energy := 0, slope := 0,
          kurtosis := 0, skewness := 0 } := by
  simp [calculateSpectralFeatures.eq_def, h]

/-- Witness for `spectral_silent_frame_zero`: the all-zero three-bin
spectrum has zero total energy and maps to the all-zero record. -/
theorem spectral_silent_frame_zero_witness :
    calculateSpectralFeatures jsMathZero [0, 0, 0] 44100 2048 none
      = { centroid := 0, bandwidth := 0, rolloff := 0, flux := 0,
          flatness := 0, crest := 0, energy := 0, slope := 0,
          kurtosis := 0, skewness := 0 } :=
  spectral_silent_frame_zero jsMathZero [0, 0, 0] 44100 2048 none (by
    norm_num [totalSpectralEnergy])

/-- A predicate preserved by every fold step is preserved by `foldl`. -/
theorem foldl_preserve {α β : Type} {P : β → Prop} (step : β → α → β)
    (hstep : ∀ b a, P b → P (step b a)) :
    ∀ (l : List α) (init : β), P init → P (l.foldl step init) := by
  intro l
  induction l with
  | nil => intro init h; exact h
  | cons x xs ih => intro init h; exact ih _ (hstep _ _ h)

/-- The initial accumulator is below the result of folding `max`. -/
theorem le_foldl_max_init (xs : List ℚ) : ∀ x : ℚ, x ≤ xs.foldl max x := by
  induction xs with
  | nil => intro x; exact le_refl x
  | cons y ys ih => intro x; exact le_trans (le_max_left x y) (ih (max x y))

/-- Every list member is below the result of folding `max`. -/
theorem le_foldl_max_mem (xs : List ℚ) : ∀ x v : ℚ, v ∈ xs → v ≤ xs.foldl max x := by
  induction xs with
  | nil => intro x v hv; exact absurd hv (List.not_mem_nil v)
  | cons y ys ih =>
    intro x v hv
    rcases List.mem_cons.mp hv with rfl | hv'
    · exact le_trans (le_max_right x v) (le_foldl_max_init ys (max x v))
    · exact ih (max x y) v hv'

/-- Folding `max` yields the accumulator or a list member. -/
theorem foldl_max_eq_or_mem (xs : List ℚ) :
    ∀ x : ℚ, xs.foldl max x = x ∨ xs.foldl max x ∈ xs := by
  induction xs with
  | nil => intro x; exact Or.inl rfl
  | cons y ys ih =>
    intro x
    rcases ih (max x y) with h | h
    · rcases max_choice x y with hm | hm
      · exact Or.inl (by rw [List.foldl_cons, h, hm])
      · refine Or.inr ?_
        rw [List.foldl_cons, h, hm]
        exact List.mem_cons_self y ys
    · exact Or.inr (List.mem_cons_of_mem y h)

/-- Reading an everywhere-nonnegative list with `getD` and default 0 gives
a nonnegative value. -/
theorem getD_nonneg {l : List ℚ} (h : ∀ v ∈ l, 0 ≤ v) : ∀ i : ℕ, 0 ≤ l.getD i 0 := by
  induction l with
  | nil => intro i; simp [List.getD]
  | cons x xs ih =>
    intro i
    cases i with
    | zero => simpa using h x (List.mem_cons_self x xs)
    | succ n =>
      rw [List.getD_cons_succ]
      exact ih (fun v hv => h v (List.mem_cons_of_mem x hv)) n

/-- A nonnegative list with zero sum is all zero. -/
theorem all_zero_of_sum_zero {l : List ℚ} (hpos : ∀ v ∈ l, 0 ≤ v)
    (hsum : l.sum = 0) : ∀ v ∈ l, v = 0 := by
  induction l with
  | nil => intro v hv; exact absurd hv (List.not_mem_nil v)
  | cons x xs ih =>
    have hx : 0 ≤ x := hpos x (List.mem_cons_self x xs)
    have hxs : 0 ≤ xs.sum := List.sum_nonneg fun v hv => hpos v (List.mem_cons_of_mem x hv)
    rw [List.sum_cons] at hsum
    have hx0 : x = 0 := by linarith
    have hs0 : xs.sum = 0 := by linarith
    intro v hv
    rcases List.mem_cons.mp hv with rfl | hv'
    · exact hx0
    · exact ih (fun w hw => hpos w (List.mem_cons_of_mem x hw)) hs0 v hv'

/-- The accumulated chroma vector always has 12 entries, all nonnegative
(the only analytic fact used is `0 ≤ sqrt x`). -/
theorem accumChroma_inv (M : JsMath) (hsqrt : ∀ x : ℚ, 0 ≤ M.sqrt x)
    (fft : List (ℚ × ℚ)) (sr fftSize : ℕ) :
    (accumChroma M fft sr fftSize).length = 12
      ∧ ∀ v ∈ accumChroma M fft sr fftSize, 0 ≤ v := by
  rw [accumChroma]
  refine @foldl_preserve ℕ (List ℚ)
    (fun ch => ch.length = 12 ∧ ∀ v ∈ ch, 0 ≤ v) _ ?_ _ _ ?_
  · intro ch i ⟨hlen, hpos⟩
    dsimp only
    split
    · split
      · refine ⟨by rw [List.length_set]; exact hlen, ?_⟩
        intro v hv
        rcases List.mem_or_eq_of_mem_set hv with hv' | rfl
        · exact hpos v hv'
        · exact add_nonneg (getD_nonneg hpos _) (hsqrt _)
      · exact ⟨hlen, hpos⟩
    · exact ⟨hlen, hpos⟩
  · exact ⟨List.length_replicate 12 0, fun v hv => le_of_eq (List.eq_of_mem_replicate hv).symm⟩

/-- Each chroma frame vector has exactly 12 entries in [0,1]. -/
theorem calculateChromaFromFFT_inv (M : JsMath) (hsqrt : ∀ x : ℚ, 0 ≤ M.sqrt x)
    (fft : List (ℚ × ℚ)) (sr fftSize : ℕ) :
    (calculateChromaFromFFT M fft sr fftSize).length = 12
      ∧ ∀ v ∈ calculateChromaFromFFT M fft sr fftSize, 0 ≤ v ∧ v ≤ 1 := by
  obtain ⟨hlen, hpos⟩ := accumChroma_inv M hsqrt fft sr fftSize
  rw [calculateChromaFromFFT]
  cases hch : accumChroma M fft sr fftSize with
  | nil => rw [hch] at hlen; simp at hlen
  | cons x xs =>
    rw [hch] at hlen hpos
    simp only [listMax?, Option.getD_some]
    split
    · next hmx =>
      constructor
      · rw [List.length_map]; exact hlen
      · intro v hv
        rw [List.mem_map] at hv
        obtain ⟨c, hc, rfl⟩ := hv
        have hc0 : 0 ≤ c := hpos c hc
        have hcm : c ≤ xs.foldl max x := by
          rcases List.mem_cons.mp hc with rfl | hc'
          · exact le_foldl_max_init xs c
          · exact le_foldl_max_mem xs x c hc'
        exact ⟨div_nonneg hc0 (le_of_lt hmx), (div_le_one hmx).mpr hcm⟩
    · exact ⟨List.length_replicate 12 0, fun v hv => by
        rw [List.eq_of_mem_replicate hv]; norm_num⟩

/-- C5: every per-frame chroma vector produced by the chroma analyzer has
exactly 12 entries, each in [0,1]; and any frame whose accumulated chroma
energy (the sum of the accumulated 12-vector) is zero yields the all-zero
12-vector — the normalization guard never divides by the zero maximum. -/
theorem chroma_frame_invariant (M : JsMath) (hsqrt : ∀ x : ℚ, 0 ≤ M.sqrt x)
    (data : List ℚ) (sr : ℕ) :
    (∀ c ∈ analyzeChromaFeatures M data sr,
      c.length = 12 ∧ ∀ v ∈ c, 0 ≤ v ∧ v ≤ 1)
    ∧ (∀ (fft : List (ℚ × ℚ)) (sr' n : ℕ),
        (accumChroma M fft sr' n).sum = 0 →
        calculateChromaFromFFT M fft sr' n = List.replicate 12 0) := by
  constructor
  · intro c hc
    rw [analyzeChromaFeatures, List.mem_map] at hc
    obtain ⟨w, -, rfl⟩ := hc
    exact calculateChromaFromFFT_inv M hsqrt _ _ _
  · intro fft sr' n hsum
    obtain ⟨hlen, hpos⟩ := accumChroma_inv M hsqrt fft sr' n
    have hzero : ∀ v ∈ accumChroma M fft sr' n, v = 0 :=
      all_zero_of_sum_zero hpos hsum
    rw [calculateChromaFromFFT]
    cases hch : accumChroma M fft sr' n with
    | nil => rw [hch] at hlen; simp at hlen
    | cons x xs =>
      rw [hch] at hzero
      simp only [listMax?, Option.getD_some]
      rw [if_neg]
      rcases foldl_max_eq_or_mem xs x with h | h
      · rw [h, hzero x (List.mem_cons_self x xs)]
        exact lt_irrefl 0
      · rw [hzero _ (List.mem_cons_of_mem x h)]
        exact lt_irrefl 0

/-- Witness for `chroma_frame_invariant` with the interpretation
`sqrt = |·|` (which is nonnegative) on a concrete buffer. -/
theorem chroma_frame_invariant_witness :
    (∀ c ∈ analyzeChromaFeatures
        { jsMathZero with sqrt := fun x => |x| }
        (List.replicate 4096 (1 : ℚ)) 44100,
      c.length = 12 ∧ ∀ v ∈ c, 0 ≤ v ∧ v ≤ 1)
    ∧ (∀ (fft : List (ℚ × ℚ)) (sr' n : ℕ),
        (accumChroma { jsMathZero with sqrt := fun x => |x| } fft sr' n).sum = 0 →
        calculateChromaFromFFT { jsMathZero with sqrt := fun x => |x| } fft sr' n
          = List.replicate 12 0) :=
  chroma_frame_invariant { jsMathZero with sqrt := fun x => |x| }
    (fun x => abs_nonneg x) (List.replicate 4096 (1 : ℚ)) 44100

/-- Unfolding lemma: `smoothArray` on `[]` is `[]`. -/
theorem smoothArray_nil (f : ℚ) : smoothArray [] f = [] := by
  rw [smoothArray.eq_def]
  split <;> rfl

/-- Unfolding lemma: `smoothArray` on a cons with a positive factor keeps
the head and blends the tail. -/
theorem smoothArray_cons (f : ℚ) (hf : ¬ f ≤ 0) (x : ℚ) (rest : List ℚ) :
    smoothArray (x :: rest) f = x :: smoothAux f x rest := by
  rw [smoothArray.eq_def, if_neg hf]

/-- Folding `max` commutes with division by a positive constant. -/
theorem foldl_max_map_div (m : ℚ) (hm : 0 < m) :
    ∀ (xs : List ℚ) (x : ℚ),
      (xs.map (fun a => a / m)).foldl max (x / m) = xs.foldl max x / m := by
  have hdivmono : ∀ a b : ℚ, a ≤ b → a / m ≤ b / m := by
    intro a b hab
    rw [div_eq_mul_inv, div_eq_mul_inv]
    exact mul_le_mul_of_nonneg_right hab (inv_nonneg.mpr hm.le)
  have hmax : ∀ a b : ℚ, max (a / m) (b / m) = max a b / m := by
    intro a b
    rcases le_total a b with h | h
    · rw [max_eq_right h, max_eq_right (hdivmono a b h)]
    · rw [max_eq_left h, max_eq_left (hdivmono b a h)]
  intro xs
  induction xs with
  | nil => intro x; rfl
  | cons y ys ih =>
    intro x
    rw [List.map_cons, List.foldl_cons, List.foldl_cons, hmax, ih]

/-- The sequential neighbour blend with factor 0.8 keeps values in [0,1]. -/
theorem smoothAux_bounds :
    ∀ (l : List ℚ) (prev : ℚ), 0 ≤ prev → prev ≤ 1 →
      (∀ v ∈ l, 0 ≤ v ∧ v ≤ 1) →
      ∀ v ∈ smoothAux (4/5) prev l, 0 ≤ v ∧ v ≤ 1 := by
  intro l
  induction l with
  | nil => intro prev _ _ _ v hv; exact absurd hv (List.not_mem_nil v)
  | cons x t ih =>
    intro prev hp0 hp1 hl v hv
    cases t with
    | nil =>
      rw [smoothAux] at hv
      rcases List.mem_singleton.mp hv with rfl
      exact hl v (List.mem_cons_self v [])
    | cons y rest =>
      rw [smoothAux] at hv
      obtain ⟨hx0, hx1⟩ := hl x (List.mem_cons_self x (y :: rest))
      obtain ⟨hy0, hy1⟩ := hl y (List.mem_cons_of_mem x (List.mem_cons_self y rest))
      have hx'0 : 0 ≤ x * (1 - 4/5) + (prev + y) * (4/5) * (1/2) := by linarith
      have hx'1 : x * (1 - 4/5) + (prev + y) * (4/5) * (1/2) ≤ 1 := by linarith
      rcases List.mem_cons.mp hv with rfl | hv'
      · exact ⟨hx'0, hx'1⟩
      · exact ih _ hx'0 hx'1
          (fun w hw => hl w (List.mem_cons_of_mem x hw)) v hv'

/-- The sequential neighbour blend maps the all-zero list to itself. -/
theorem smoothAux_all_zero (f : ℚ) :
    ∀ (l : List ℚ) (prev : ℚ), prev = 0 → (∀ v ∈ l, v = 0) →
      ∀ v ∈ smoothAux f prev l, v = 0 := by
  intro l
  induction l with
  | nil => intro prev _ _ v hv; exact absurd hv (List.not_mem_nil v)
  | cons x t ih =>
    intro prev hp hl v hv
    cases t with
    | nil =>
      rw [smoothAux] at hv
      rcases List.mem_singleton.mp hv with rfl
      exact hl v (List.mem_cons_self v [])
    | cons y rest =>
      rw [smoothAux] at hv
      have hx : x = 0 := hl x (List.mem_cons_self x (y :: rest))
      have hy : y = 0 := hl y (List.mem_cons_of_mem x (List.mem_cons_self y rest))
      have hx' : x * (1 - f) + (prev + y) * f * (1/2) = 0 := by
        rw [hx, hy, hp]; ring
      rcases List.mem_cons.mp hv with rfl | hv'
      · exact hx'
      · exact ih _ hx' (fun w hw => hl w (List.mem_cons_of_mem x hw)) v hv'

/-- Every RMS amplitude is nonnegative (only `0 ≤ sqrt x` is used). -/
theorem rmsAmplitudes_nonneg (M : JsMath) (hsqrt : ∀ x : ℚ, 0 ≤ M.sqrt x)
    (data : List ℚ) (sr : ℕ) : ∀ a ∈ rmsAmplitudes M data sr, 0 ≤ a := by
  intro a ha
  rw [rmsAmplitudes, List.mem_map] at ha
  obtain ⟨fr, -, rfl⟩ := ha
  exact hsqrt _

/-- C3 (amended). For a buffer with at least one positive RMS frame, the
normalized amplitude sequence (before the final smoothing pass) has
maximum exactly 1, and every value of the returned (smoothed) sequence
lies in [0,1] — but the smoothing pass can lower the maximum of the
returned sequence strictly below 1 (see the counterexample). For a buffer
of all-zero samples the returned sequence is all zeros, with every value a
well-defined rational (no `NaN`/`Infinity`: the `maxAmp > 0` guard skips
the division). -/
theorem basic_amplitude_normalization (M : JsMath)
    (hsqrt : ∀ x : ℚ, 0 ≤ M.sqrt x) (hsqrt0 : M.sqrt 0 = 0)
    (data : List ℚ) (sr : ℕ) :
    ((∃ a ∈ rmsAmplitudes M data sr, 0 < a) →
        listMax? (normalizeAmplitudes (rmsAmplitudes M data sr)) = some 1
        ∧ ∀ v ∈ analyzeBasicAmplitude M data sr, 0 ≤ v ∧ v ≤ 1)
    ∧ ((∀ s ∈ data, s = 0) →
        ∀ v ∈ analyzeBasicAmplitude M data sr, v = 0) := by
  constructor
  · rintro ⟨a, ha, hapos⟩
    have hnn := rmsAmplitudes_nonneg M hsqrt data sr
    cases hamps : rmsAmplitudes M data sr with
    | nil => rw [hamps] at ha; exact absurd ha (List.not_mem_nil a)
    | cons x xs =>
      rw [hamps] at ha hnn
      set m := xs.foldl max x with hm
      have ham : a ≤ m := by
        rcases List.mem_cons.mp ha with rfl | ha'
        · exact le_foldl_max_init xs a
        · exact le_foldl_max_mem xs x a ha'
      have hmpos : 0 < m := lt_of_lt_of_le hapos ham
      have hmem_le : ∀ v ∈ x :: xs, v ≤ m := by
        intro v hv
        rcases List.mem_cons.mp hv with rfl | hv'
        · exact le_foldl_max_init xs v
        · exact le_foldl_max_mem xs x v hv'
      have hnorm : normalizeAmplitudes (x :: xs) = (x :: xs).map (fun a => a / m) := by
        rw [normalizeAmplitudes]
        simp only [listMax?, ← hm, if_pos hmpos]
      have hmax1 : listMax? (normalizeAmplitudes (x :: xs)) = some 1 := by
        rw [hnorm, List.map_cons, listMax?, foldl_max_map_div m hmpos, ← hm,
          div_self (ne_of_gt hmpos)]
      have hbounds : ∀ v ∈ normalizeAmplitudes (x :: xs), 0 ≤ v ∧ v ≤ 1 := by
        rw [hnorm]
        intro v hv
        rw [List.mem_map] at hv
        obtain ⟨c, hc, rfl⟩ := hv
        exact ⟨div_nonneg (hnn c hc) hmpos.le, (div_le_one hmpos).mpr (hmem_le c hc)⟩
      refine ⟨hmax1, ?_⟩
      rw [analyzeBasicAmplitude, hamps]
      cases hn : normalizeAmplitudes (x :: xs) with
      | nil => rw [smoothArray_nil]; intro v hv; exact absurd hv (List.not_mem_nil v)
      | cons z zs =>
        rw [smoothArray_cons _ (by norm_num)]
        rw [hn] at hbounds
        intro v hv
        obtain ⟨hz0, hz1⟩ := hbounds z (List.mem_cons_self z zs)
        rcases List.mem_cons.mp hv with rfl | hv'
        · exact ⟨hz0, hz1⟩
        · exact smoothAux_bounds zs z hz0 hz1
            (fun w hw => hbounds w (List.mem_cons_of_mem z hw)) v hv'
  · intro hzero
    have hampz : ∀ a ∈ rmsAmplitudes M data sr, a = 0 := by
      intro a ha
      rw [rmsAmplitudes, List.mem_map] at ha
      obtain ⟨fr, hfr, rfl⟩ := ha
      have hfz : ∀ s ∈ fr, s = 0 := by
        intro s hs
        rw [frames, List.mem_map] at hfr
        obtain ⟨i, -, rfl⟩ := hfr
        exact hzero s (List.mem_of_mem_drop (List.mem_of_mem_take hs))
      have hsum : (fr.map (fun s => s * s)).sum = 0 := by
        apply List.sum_eq_zero
        intro q hq
        rw [List.mem_map] at hq
        obtain ⟨s, hs, rfl⟩ := hq
        rw [hfz s hs]; ring
      rw [hsum, zero_div, hsqrt0]
    have hnorm : normalizeAmplitudes (rmsAmplitudes M data sr)
        = rmsAmplitudes M data sr := by
      rw [normalizeAmplitudes]
      cases hamps : rmsAmplitudes M data sr with
      | nil => rfl
      | cons x xs =>
        rw [hamps] at hampz
        simp only [listMax?]
        rw [if_neg]
        rcases foldl_max_eq_or_mem xs x with h | h
        · rw [h, hampz x (List.mem_cons_self x xs)]; exact lt_irrefl 0
        · rw [hampz _ (List.mem_cons_of_mem x h)]; exact lt_irrefl 0
    rw [analyzeBasicAmplitude, hnorm]
    cases hamps : rmsAmplitudes M data sr with
    | nil => rw [smoothArray_nil]; intro v hv; exact absurd hv (List.not_mem_nil v)
    | cons x xs =>
      rw [smoothArray_cons _ (by norm_num)]
      rw [hamps] at hampz
      intro v hv
      have hx : x = 0 := hampz x (List.mem_cons_self x xs)
      rcases List.mem_cons.mp hv with rfl | hv'
      · exact hx
      · exact smoothAux_all_zero _ xs x hx
          (fun w hw => hampz w (List.mem_cons_of_mem x hw)) v hv'

/-- The three RMS frames of `cexData`: `√(72/8), √(200/8), √(128/8)`
= `[3, 5, 4]`. -/
theorem rms_cex : rmsAmplitudes jsMathCex cexData 80 = [3, 5, 4] := by
  have h5 : (13 : ℕ) - 8 = 5 := rfl
  have h1 : frameStarts 13 8 2 = [0, 2, 4] := by
    rw [frameStarts, h5, frameLoop_eq 5 2 (by norm_num) 0]
    rfl
  have hfr : frames cexData 8 2 = [[0, 0, 6, 6, 0, 0, 0, 0],
      [6, 6, 0, 0, 0, 0, 8, 8], [0, 0, 0, 0, 8, 8, 0, 0]] := by
    rw [frames, show cexData.length = 13 from rfl, h1]
    rfl
  simp only [rmsAmplitudes, show (80 : ℕ) / 10 = 8 from rfl,
    show (8 : ℕ) / 4 = 2 from rfl, hfr, List.map_cons, List.map_nil]
  norm_num [jsMathCex, jsMathZero, sqrtOnSquares, List.sum_cons]

/-- Counterexample to C3 as stated: `cexData` is non-silent (RMS frames
`[3,5,4]`, normalized `[3/5, 1, 4/5]`), yet the amplitude sequence
actually returned by `analyzeBasic` — normalized **then smoothed** — is
`[3/5, 19/25, 4/5]`, whose maximum is `4/5`, off from 1.0 by `1/5`, far
beyond any floating-point epsilon. -/
theorem basic_amplitude_claim_cex :
    listMax? (analyzeBasicAmplitude jsMathCex cexData 80) = some (4/5)
    ∧ (4/5 : ℚ) ≤ 1 - 1/5 := by
  constructor
  · rw [analyzeBasicAmplitude, rms_cex]
    have hnorm : normalizeAmplitudes [3, 5, 4] = [3/5, 1, 4/5] := by
      rw [normalizeAmplitudes]
      norm_num [listMax?]
    rw [hnorm, smoothArray_cons _ (by norm_num)]
    rw [show smoothAux (4/5) (3/5) [1, 4/5]
        = [1 * (1 - 4/5) + (3/5 + 4/5) * (4/5) * (1/2), 4/5] from rfl]
    norm_num [listMax?]
  · norm_num

/-- Witness for `basic_amplitude_normalization` at the concrete
interpretation `jsMathCex` and buffer `cexData`. -/
theorem basic_amplitude_normalization_witness :
    ((∃ a ∈ rmsAmplitudes jsMathCex cexData 80, 0 < a) →
        listMax? (normalizeAmplitudes (rmsAmplitudes jsMathCex cexData 80)) = some 1
        ∧ ∀ v ∈ analyzeBasicAmplitude jsMathCex cexData 80, 0 ≤ v ∧ v ≤ 1)
    ∧ ((∀ s ∈ cexData, s = 0) →
        ∀ v ∈ analyzeBasicAmplitude jsMathCex cexData 80, v = 0) :=
  basic_amplitude_normalization jsMathCex
    (by
      intro x
      simp only [jsMathCex, jsMathZero, sqrtOnSquares]
      split_ifs <;> norm_num)
    (by norm_num [jsMathCex, jsMathZero, sqrtOnSquares])
    cexData 80

/-- C7 (amended). Fewer than two beats yield tempo 0. Otherwise, with
`bpm = 60 / medianInterval`: if `bpm < 60` the doubled value `2·bpm` is
returned (its side condition `2·bpm ≤ 200` always holds, so the
"neither fold applies" case is unreachable for an out-of-range bpm);
if `bpm > 200` the halved value `bpm/2` is returned (its side condition
`bpm/2 ≥ 60` always holds); and when `60 ≤ bpm ≤ 200` the value returned
is `bpm` **rounded to the nearest integer** (`Math.round`), not the raw
bpm. Folded values are returned unrounded. -/
theorem tempo_fold (beats : List ℚ) :
    (beats.length < 2 → calculateTempo beats = 0)
    ∧ (2 ≤ beats.length →
        (60 / medianInterval beats < 60 →
            calculateTempo beats = 60 / medianInterval beats * 2)
        ∧ (200 < 60 / medianInterval beats →
            calculateTempo beats = 60 / medianInterval beats / 2)
        ∧ (60 ≤ 60 / medianInterval beats → 60 / medianInterval beats ≤ 200 →
            calculateTempo beats = (jsRound (60 / medianInterval beats) : ℚ))) := by
  constructor
  · intro hlen
    rw [calculateTempo, if_pos hlen]
  · intro hlen
    have hnot : ¬ beats.length < 2 := by omega
    refine ⟨?_, ?_, ?_⟩
    · intro hlow
      rw [calculateTempo, if_neg hnot]
      simp only
      rw [if_pos ⟨hlow, by linarith⟩]
    · intro hhigh
      rw [calculateTempo, if_neg hnot]
      simp only
      rw [if_neg (by rintro ⟨h1, -⟩; linarith), if_pos ⟨hhigh, by linarith⟩]
    · intro h1 h2
      rw [calculateTempo, if_neg hnot]
      simp only
      rw [if_neg (by rintro ⟨hl, -⟩; linarith),
        if_neg (by rintro ⟨hh, -⟩; linarith)]

/-- The median interval of the two-beat list `[0, 9/10]` is `9/10`. -/
theorem medianInterval_two : medianInterval [0, 9/10] = 9/10 := by
  simp [medianInterval, intervalsOf, List.insertionSort]

/-- Counterexample to C7 as stated: for beats `[0, 0.9]` the bpm is
`60/0.9 = 200/3 ∈ [60,200]`, so neither fold applies; the claim says the
raw value `200/3` is kept, but the source returns `Math.round(200/3) = 67
≠ 200/3`. -/
theorem tempo_claim_cex :
    calculateTempo [0, 9/10] = 67 ∧ (67 : ℚ) ≠ 60 / medianInterval [0, 9/10] := by
  have hbpm : 60 / medianInterval [0, 9/10] = 200/3 := by
    rw [medianInterval_two]; norm_num
  constructor
  · rw [calculateTempo, if_neg (by norm_num)]
    simp only
    rw [hbpm, if_neg (by rintro ⟨h, -⟩; norm_num at h),
      if_neg (by rintro ⟨h, -⟩; norm_num at h)]
    have : jsRound (200/3) = 67 := by
      rw [jsRound, Int.floor_eq_iff]
      norm_num
    rw [this]
    norm_num
  · rw [hbpm]
    norm_num

/-- Witness for `tempo_fold` at `beats = [0, 9/10]`: both branch
hypotheses are discharged concretely (the in-range branch applies). -/
theorem tempo_fold_witness :
    calculateTempo [0, 9/10] = (jsRound (60 / medianInterval [0, 9/10]) : ℚ) :=
  ((tempo_fold [0, 9/10]).2 (by norm_num)).2.2
    (by rw [medianInterval_two]; norm_num)
    (by rw [medianInterval_two]; norm_num)

/-- Invariant of the beat-collecting loop: if the pending indices are
pairwise increasing and all beyond every collected beat, the collected
beats stay `minBeatInterval`-separated. -/
theorem findBeatsLoop_inv (cond : ℕ → Bool) (mBI : ℕ) :
    ∀ (idxs beats : List ℕ),
      List.Pairwise (· < ·) idxs →
      (∀ b ∈ beats, ∀ i ∈ idxs, b < i) →
      List.Chain' (fun a b => a + mBI < b) beats →
      List.Chain' (fun a b => a + mBI < b) (findBeatsLoop cond mBI idxs beats) := by
  intro idxs
  induction idxs with
  | nil =>
    intro beats _ _ hch
    rw [findBeatsLoop]
    exact hch
  | cons i rest ih =>
    intro beats hpw hb hch
    have hpw' : List.Pairwise (· < ·) rest := (List.pairwise_cons.mp hpw).2
    have hivals : ∀ j ∈ rest, i < j := (List.pairwise_cons.mp hpw).1
    rw [findBeatsLoop]
    split
    · next hok =>
      refine ih (beats ++ [i]) hpw' ?_ ?_
      · intro b hbmem j hj
        rcases List.mem_append.mp hbmem with hbm | hbm
        · exact lt_trans (hb b hbm i (List.mem_cons_self i rest)) (hivals j hj)
        · rw [List.mem_singleton.mp hbm]
          exact hivals j hj
      · rw [List.chain'_append]
        refine ⟨hch, List.chain'_singleton i, ?_⟩
        intro b hblast j hjhead
        rw [List.head?_cons, Option.mem_def, Option.some_inj] at hjhead
        subst hjhead
        have hbmem : b ∈ beats := by
          obtain ⟨hne, heq⟩ := List.mem_getLast?_eq_getLast hblast
          rw [heq]
          exact List.getLast_mem hne
        have hbi : b < i := hb b hbmem i (List.mem_cons_self i rest)
        rw [Bool.and_eq_true] at hok
        have hmbi : mBI < i - b := by
          have := hok.2
          rw [Option.mem_def] at hblast
          rw [hblast] at this
          exact of_decide_eq_true this
        omega
    · exact ih beats hpw'
        (fun b hbmem j hj => lt_trans
          (hb b hbmem i (List.mem_cons_self i rest)) (hivals j hj)) hch

/-- C6: the beat sequence returned by `findBeats` is strictly increasing
in time and every pair of consecutive beats is separated by at least
300 ms (in fact strictly more than `0.3·sampleRate/hopSize` frames scaled
back to seconds, which is > 0.3 s). -/
theorem findBeats_ordered (E O : List ℚ) (sr hop : ℕ)
    (hsr : 0 < sr) (hhop : 0 < hop) :
    List.Chain' (fun t u : ℚ => t < u ∧ 3/10 ≤ u - t) (findBeats E O sr hop) := by
  have hsrq : (0 : ℚ) < sr := by exact_mod_cast hsr
  have hhopq : (0 : ℚ) < hop := by exact_mod_cast hhop
  set mBI := minBeatInterval sr hop with hmBIdef
  have hx0 : (0 : ℚ) ≤ (3/10 : ℚ) * sr / hop := by positivity
  have hfl : ((mBI : ℕ) : ℚ) = ((⌊(3/10 : ℚ) * sr / hop⌋ : ℤ) : ℚ) := by
    rw [hmBIdef, minBeatInterval]
    exact_mod_cast congrArg (fun z : ℤ => (z : ℚ))
      (Int.toNat_of_nonneg (Int.floor_nonneg.mpr hx0))
  have hxlt : (3/10 : ℚ) * sr / hop < (mBI : ℚ) + 1 := by
    rw [hfl]
    exact Int.lt_floor_add_one _
  have hgap : (3/10 : ℚ) < ((mBI : ℚ) + 1) * hop / sr := by
    have he : ((3/10 : ℚ) * sr / hop) * (hop / sr) = 3/10 := by
      field_simp
      ring
    have hm := mul_lt_mul_of_pos_right hxlt (by positivity : (0:ℚ) < hop / sr)
    rw [he] at hm
    calc (3/10 : ℚ) < ((mBI : ℚ) + 1) * (hop / sr) := hm
      _ = ((mBI : ℚ) + 1) * hop / sr := by ring
  have hframes : List.Chain' (fun a b => a + mBI < b) (findBeatsFrames E O sr hop) := by
    rw [findBeatsFrames]
    refine findBeatsLoop_inv _ _ _ [] ?_ ?_ ?_
    · exact List.pairwise_lt_range' _ _
    · intro b hbmem
      exact absurd hbmem (List.not_mem_nil b)
    · exact List.chain'_nil
  rw [findBeats, List.chain'_map]
  refine hframes.imp ?_
  intro a b hab
  have hba : ((mBI : ℚ) + 1) ≤ (b : ℚ) - (a : ℚ) := by
    have h1 : a + mBI + 1 ≤ b := hab
    have h2 : ((a + mBI + 1 : ℕ) : ℚ) ≤ ((b : ℕ) : ℚ) := by exact_mod_cast h1
    push_cast at h2
    linarith
  have hdiff : ((b * hop : ℕ) : ℚ) / sr - ((a * hop : ℕ) : ℚ) / sr
      = ((b : ℚ) - a) * hop / sr := by
    push_cast
    ring
  have hge : (3/10 : ℚ) < ((b * hop : ℕ) : ℚ) / sr - ((a * hop : ℕ) : ℚ) / sr := by
    rw [hdiff]
    calc (3/10 : ℚ) < ((mBI : ℚ) + 1) * hop / sr := hgap
      _ ≤ ((b : ℚ) - a) * hop / sr := by
          have hmul : ((mBI : ℚ) + 1) * hop ≤ ((b : ℚ) - a) * hop :=
            mul_le_mul_of_nonneg_right hba hhopq.le
          rw [div_eq_mul_inv, div_eq_mul_inv]
          exact mul_le_mul_of_nonneg_right hmul (inv_nonneg.mpr hsrq.le)
  constructor
  · linarith
  · linarith

/-- Witness for `findBeats_ordered` at concrete energy/onset data with
`sampleRate = 4`, `hopSize = 2`. -/
theorem findBeats_ordered_witness :
    List.Chain' (fun t u : ℚ => t < u ∧ 3/10 ≤ u - t)
      (findBeats [1, 2, 3] [0, 0, 0] 4 2) :=
  findBeats_ordered [1, 2, 3] [0, 0, 0] 4 2 (by norm_num) (by norm_num)

/-- C2, evaluated at the failing input. Upload buffer `1` with tab
`basic` active: the analyzer runs once and caches the record `1`. Then
upload buffer `2`: `handleFileUpload` never clears the cache, so the
inner `analyzeForTab('basic', 2)` (shown here exactly as it is invoked,
after `setAudioBuffer`) returns the record `1` computed from the *old*
buffer, running the analyzer zero times, although analyzing buffer `2`
would give `2`. The claim's cache-invalidation half is false of the code;
the single-flight half holds but cannot rescue the conjunction. -/
theorem cache_stale_after_buffer_swap :
    ((handleFileUpload (fun _ b => b) Tab.basic (some 1)
        (initialHookState ℕ ℕ)).2 = 1)
    ∧ ((analyzeForTab (fun _ b => b) Tab.basic (some 2)
        { (handleFileUpload (fun _ b => b) Tab.basic (some 1)
            (initialHookState ℕ ℕ)).1 with audioBuffer := some 2 }).1 = some 1)
    ∧ ((analyzeForTab (fun _ b => b) Tab.basic (some 2)
        { (handleFileUpload (fun _ b => b) Tab.basic (some 1)
            (initialHookState ℕ ℕ)).1 with audioBuffer := some 2 }).2.2 = 0)
    ∧ ((fun _ b => b : Tab → ℕ → ℕ) Tab.basic 2 = 2) :=
  ⟨rfl, rfl, rfl, rfl⟩

/-- C10: `analyzeForTab` with a null/undefined buffer returns `null`
immediately — the analyzer is never invoked (count 0) and the hook state,
including every cached analysis result, is left untouched. -/
theorem analyzeForTab_null_buffer {β ρ : Type} (analyze : Tab → β → ρ)
    (t : Tab) (s : HookState β ρ) :
    analyzeForTab analyze t none s = (none, s, 0) := rfl
